import Mathlib

/-!
Verification of the candidate-query extraction and job fan-out logic of
`src/app.py` (AI Job Finder MVP).  The Python functions
`parse_analysis_to_candidates` and `fetch_real_jobs` are embedded shallowly:
strings are Lean `String`s (lists of characters), Python string helpers
(`strip`, `split`, `splitlines`, `lower`, `re.split`) are modelled as
executable character-list functions, and the HTTP layer of `fetch_real_jobs`
is abstracted into an oracle mapping a (query, location) pair to the response
the endpoint would give.  Lowercasing is modelled per character (Python's
`str.lower`, restricted to case mappings that keep one character one
character, which covers the ASCII content these claims are about).
-/

namespace App

/-- Python whitespace predicate used by `str.strip()` and `str.split()`:
ASCII whitespace plus the common Unicode space/separator characters. -/
def pyIsSpace (c : Char) : Bool :=
  c == ' ' || c == '\t' || c == '\n' || c == '\r' || c == '\x0b' || c == '\x0c' ||
  c == '\x1c' || c == '\x1d' || c == '\x1e' || c == '\x1f' || c == '\x85' ||
  c == '\xa0' || c == '\u1680' || ('\u2000' ≤ c && c ≤ '\u200A') ||
  c == '\u2028' || c == '\u2029' || c == '\u202F' || c == '\u205F' || c == '\u3000'

/-- Characters `str.splitlines()` treats as a line boundary (besides `\r` and
the two-character boundary `\r\n`, handled separately). -/
def isLineBreakCh (c : Char) : Bool :=
  c == '\n' || c == '\x0b' || c == '\x0c' || c == '\x1c' || c == '\x1d' ||
  c == '\x1e' || c == '\x85' || c == '\u2028' || c == '\u2029'

/-- Accumulator pass behind `str.splitlines()`: `cur` holds the reversed
characters of the line being read.  A final line is emitted only when
non-empty, matching Python ("a\n".splitlines() = ["a"], "".splitlines() = []). -/
def splitLinesGo : List Char → List Char → List String
  | [], cur => if cur.isEmpty then [] else [String.mk cur.reverse]
  | '\r' :: '\n' :: cs, cur => String.mk cur.reverse :: splitLinesGo cs []
  | c :: cs, cur =>
    if c == '\r' || isLineBreakCh c then String.mk cur.reverse :: splitLinesGo cs []
    else splitLinesGo cs (c :: cur)

/-- Python `s.splitlines()`. -/
def pySplitLines (s : String) : List String := splitLinesGo s.data []

/-- Character-list form of Python `str.strip()`: drop whitespace from both
ends. -/
def stripChars (l : List Char) : List Char :=
  ((l.dropWhile pyIsSpace).reverse.dropWhile pyIsSpace).reverse

/-- Python `s.strip()`. -/
def pyStrip (s : String) : String := String.mk (stripChars s.data)

/-- Python `s.lower()`, one character at a time. -/
def pyLower (s : String) : String := String.mk (s.data.map Char.toLower)

/-- Accumulator pass behind no-argument `str.split()`: split on runs of
whitespace, producing no empty fragments. -/
def splitWsGo : List Char → List Char → List String
  | [], cur => if cur.isEmpty then [] else [String.mk cur.reverse]
  | c :: cs, cur =>
    if pyIsSpace c then
      if cur.isEmpty then splitWsGo cs [] else String.mk cur.reverse :: splitWsGo cs []
    else splitWsGo cs (c :: cur)

/-- Python `s.split()` (whitespace tokenisation). -/
def pySplit (s : String) : List String := splitWsGo s.data []

/-- Python `" ".join(xs)`. -/
def pyJoinSpace : List String → String
  | [] => ""
  | [x] => x
  | x :: xs => x ++ " " ++ pyJoinSpace xs

/-- The delimiter class of the regex `[,\x7c;/]+` used in
`parse_analysis_to_candidates`: comma, pipe, semicolon, slash. -/
def isDelimCh (c : Char) : Bool :=
  c == ',' || c == '|' || c == ';' || c == '/'

/-- Accumulator pass behind `re.split` on `[,\x7c;/]+`: a maximal run of
delimiter characters separates two fragments; the flag records that the
previous character was a delimiter (so a longer run adds no empty fragment,
exactly as the `+` in the pattern collapses runs). -/
def reSplitGo : List Char → List Char → Bool → List String
  | [], cur, _ => [String.mk cur.reverse]
  | c :: cs, cur, inRun =>
    if isDelimCh c then
      if inRun then reSplitGo cs [] true
      else String.mk cur.reverse :: reSplitGo cs [] true
    else reSplitGo cs (c :: cur) false

/-- The Python comprehension `[t.strip() for t in re.split(r'[,\x7c;/]+', s) if t.strip()]`. -/
def delimFrags (s : String) : List String :=
  ((reSplitGo s.data [] false).map pyStrip).filter (fun x => !(x == ""))

/-- Boolean prefix test on character lists (Python `str.startswith`). -/
def listPrefixOfB : List Char → List Char → Bool
  | [], _ => true
  | _ :: _, [] => false
  | a :: as, b :: bs => a == b && listPrefixOfB as bs

/-- Boolean substring test on character lists (Python `pat in s`). -/
def containsSub (pat : List Char) : List Char → Bool
  | [] => listPrefixOfB pat []
  | l@(_ :: rest) => listPrefixOfB pat l || containsSub pat rest

/-- Python `s.split(":", 1)[1]` when the colon exists: the text after the
first colon, `none` when the line has no colon (so `len(parts) == 1`). -/
def afterColonChars : List Char → Option String
  | [] => none
  | c :: cs => if c == ':' then some (String.mk cs) else afterColonChars cs

/-- The text after the first colon of a line, if any. -/
def afterColon (s : String) : Option String := afterColonChars s.data

/-- The job-title heading test of `parse_analysis_to_candidates` (line 83):
`"suggested job titles" in low or line.lower().startswith("suggested job titles")`. -/
def titleHeadingB (line : String) : Bool :=
  containsSub "suggested job titles".data (pyLower line).data ||
  listPrefixOfB "suggested job titles".data (pyLower line).data

/-- The skills heading test of `parse_analysis_to_candidates` (line 103):
`"list of technical skills" in low or line.lower().startswith("skills:") or
"technical skills" in low`. -/
def skillsHeadingB (line : String) : Bool :=
  containsSub "list of technical skills".data (pyLower line).data ||
  listPrefixOfB "skills:".data (pyLower line).data ||
  containsSub "technical skills".data (pyLower line).data

/-- The `while` loop following the job-title heading (lines 89-97): consume
following lines while fewer than 10 candidates are accumulated and the line
has at most 8 whitespace tokens, appending its delimiter fragments. -/
def titleFollow : List String → List String → List String
  | cands, [] => cands
  | cands, nxt :: rest =>
    if cands.length < 10 then
      if (pySplit nxt).length ≤ 8 then titleFollow (cands ++ delimFrags nxt) rest
      else cands
    else cands

/-- The first `for` scan of `parse_analysis_to_candidates` (lines 81-98):
find the first line matching the job-title heading, take the delimiter
fragments after its first colon (nothing if it has none), then consume
following short lines; stop after the first match. -/
def titleScanGo : List String → List String
  | [] => []
  | line :: rest =>
    if titleHeadingB line then
      titleFollow
        (match afterColon line with
          | some t => delimFrags t
          | none => []) rest
    else titleScanGo rest

/-- The `while` loop following the skills heading (lines 109-117): consume
following lines while fewer than 12 candidates are accumulated and the line
contains a comma or has at most 10 whitespace tokens. -/
def skillsFollow : List String → List String → List String
  | cands, [] => cands
  | cands, nxt :: rest =>
    if cands.length < 12 then
      if nxt.data.contains ',' ∨ (pySplit nxt).length ≤ 10 then
        skillsFollow (cands ++ delimFrags nxt) rest
      else cands
    else cands

/-- The second `for` scan of `parse_analysis_to_candidates` (lines 101-118):
find the first line matching the skills heading, take at most 6 delimiter
fragments from the text after its first colon (the empty string if it has no
colon), then consume following qualifying lines; stop after the first match.
`cands` carries the candidates already found by the title scan. -/
def skillsScanGo : List String → List String → List String
  | cands, [] => cands
  | cands, line :: rest =>
    if skillsHeadingB line then
      skillsFollow (cands ++ (delimFrags ((afterColon line).getD "")).take 6) rest
    else skillsScanGo cands rest

/-- The fallback query (lines 121-124): the first six whitespace tokens of
the whole input, joined by single spaces and stripped. -/
def fallbackQuery (s : String) : String :=
  pyStrip (pyJoinSpace ((pySplit s).take 6))

/-- Line pre-processing (line 78):
`[l.strip() for l in analysis_text.splitlines() if l.strip()]`. -/
def processedLines (s : String) : List String :=
  ((pySplitLines s).map pyStrip).filter (fun l => !(l == ""))

/-- The candidate list of `parse_analysis_to_candidates` before the final
cleanup (lines 77-124): title scan, then skills scan, then the fallback when
both scans produced nothing and the fallback fragment is non-empty. -/
def candidatesOf (s : String) : List String :=
  let lines := processedLines s
  let c2 := skillsScanGo (titleScanGo lines) lines
  if c2.isEmpty then
    if fallbackQuery s == "" then [] else [fallbackQuery s]
  else c2

/-- The final cleanup loop (lines 127-130): keep a fragment when its length
lies in [2, 80] and its lowercasing is not already among the kept fragments'
lowercasings; `acc` is the `cleaned` list built so far. -/
def cleanupGo : List String → List String → List String
  | acc, [] => acc
  | acc, c :: cs =>
    if 2 ≤ c.length ∧ c.length ≤ 80 ∧ pyLower c ∉ acc.map pyLower then
      cleanupGo (acc ++ [c]) cs
    else cleanupGo acc cs

/-- `parse_analysis_to_candidates` (src/app.py lines 72-131). -/
def parse_analysis_to_candidates (s : String) : List String :=
  cleanupGo [] (candidatesOf s)

/-! ## `fetch_real_jobs` (src/app.py lines 133-218)

The HTTP GET against the Adzuna endpoint is abstracted into an oracle
`Net : String → String → HttpResult` from the (query, location) pair of the
request to the outcome: `exn` models `requests.get` raising, and
`resp status results` a response whose status code is `status` and whose
parsed `results` JSON array is `results` (`none` models `resp.json()`
raising).  The fixed URL, credentials and `results_per_page = min(50,
results)` parameters are the same for every request of one call, so they are
not part of the oracle's argument.  `time.sleep(0.25)` has no observable
effect in the embedding.  Each entry appended to `collected` is paired with
the dedup key added to `seen` at the same moment, so that the dedup claim can
be stated; `fetch_real_jobs` itself discards the key, returning exactly the
posting dictionaries the Python code builds. -/

/-- A posting object of the Adzuna `results` array, restricted to the keys
`fetch_real_jobs` reads.  `none` models an absent key (or JSON `null`). -/
structure AdzunaJob where
  id : Option String
  title : Option String
  /-- `job.get("company", \x7b\x7d).get("display_name", "")` flattened. -/
  company : Option String
  /-- `job.get("location", \x7b\x7d).get("display_name", "")` flattened. -/
  location : Option String
  description : Option String
  redirect_url : Option String
  url : Option String
deriving DecidableEq

/-- Python `a or b` for an optional string `a`: `b` when `a` is `None` or
empty. -/
def pyOr (a : Option String) (b : String) : String :=
  match a with
  | some s => if s == "" then b else s
  | none => b

/-- The dedup key (line 201): `job.get("id") or (job.get("title","") + "|" +
job.get("company",\x7b\x7d).get("display_name",""))`. -/
def jobId (j : AdzunaJob) : String :=
  pyOr j.id ((j.title.getD "") ++ "|" ++ (j.company.getD ""))

/-- The dictionary appended to `collected` (lines 205-211). -/
structure Posting where
  title : Option String
  company : String
  location : String
  description : String
  redirect_url : String
deriving DecidableEq

/-- Build the collected posting from a fetched job (lines 205-211): the
description is `(job.get("description") or "")[:300].replace("\n", " ").strip()`. -/
def mkPosting (j : AdzunaJob) : Posting :=
  { title := j.title
    company := j.company.getD ""
    location := j.location.getD ""
    description :=
      pyStrip (String.mk (((pyOr j.description "").data.take 300).map
        (fun c => if c == '\n' then ' ' else c)))
    redirect_url := pyOr j.redirect_url (pyOr j.url "") }

/-- Outcome of one `requests.get`: the call raised, or a response with a
status code and (when its JSON parses) a `results` array. -/
inductive HttpResult where
  | exn : HttpResult
  | resp (status : Nat) (results : Option (List AdzunaJob)) : HttpResult

/-- The network oracle: the response the endpoint gives to the request for a
(query, location) pair. -/
def Net : Type := String → String → HttpResult

/-- The fixed location list (line 153), narrow to broad. -/
def locations : List String :=
  ["Chennai", "Bangalore", "Hyderabad", "Coimbatore", "Madurai", "Tamil Nadu",
   "India", ""]

/-- The fixed priority role keywords (lines 157-161). -/
def priority_roles : List String :=
  ["Software Development & Engineering", "Engineering Operations",
   "Machine Learning", "Data Analytics & Business Intelligence"]

/-- The fixed common fallback titles (line 164). -/
def fallbackTitles : List String :=
  ["Data Engineer", "Software Engineer", "Developer", "Backend Developer",
   "Data Analyst"]

/-- The query list (line 164): non-empty candidates first, then priority
roles, then fallback titles. -/
def buildQueries (candidates : List String) : List String :=
  candidates.filter (fun q => !(q == "")) ++ priority_roles ++ fallbackTitles

/-- The `for job in data` loop (lines 200-213): skip jobs whose key is in
`seen`, else record the key and append the posting (paired with its key),
breaking once `results` postings are collected. -/
def addJobs (results : Nat) :
    List AdzunaJob → List (String × Posting) → List String →
    List (String × Posting) × List String
  | [], col, seen => (col, seen)
  | job :: rest, col, seen =>
    let jid := jobId job
    if jid ∈ seen then addJobs results rest col seen
    else
      let col2 := col ++ [(jid, mkPosting job)]
      if results ≤ col2.length then (col2, seen ++ [jid])
      else addJobs results rest col2 (seen ++ [jid])

/-- Outcome of the nested request loops: an authentication abort (carrying
the number of requests issued so far), or normal completion with the
accumulated state. -/
inductive FetchOut where
  | auth (reqs : Nat) : FetchOut
  | ok (col : List (String × Posting)) (seen : List String) (reqs : Nat) : FetchOut
deriving DecidableEq

/-- The request count carried by a loop outcome. -/
def reqsOf : FetchOut → Nat
  | .auth r => r
  | .ok _ _ r => r

/-- The inner `for loc in locations` loop (lines 169-216) for one query:
break when enough postings are collected; issue the request; a raised
`requests.get` or a non-200, non-auth status or unparseable JSON skips the
pair; a 401/403 status aborts the whole search; a 200 response's jobs are
folded in.  `r` counts the requests issued so far. -/
def runLocs (net : Net) (q : String) (results : Nat) :
    List String → List (String × Posting) → List String → Nat → FetchOut
  | [], col, seen, r => .ok col seen r
  | loc :: locs, col, seen, r =>
    if results ≤ col.length then .ok col seen r
    else
      match net q loc with
      | .exn => runLocs net q results locs col seen (r + 1)
      | .resp status body =>
        if status ≠ 200 then
          if status = 401 ∨ status = 403 then .auth (r + 1)
          else runLocs net q results locs col seen (r + 1)
        else
          match body with
          | none => runLocs net q results locs col seen (r + 1)
          | some data =>
            let cs := addJobs results data col seen
            runLocs net q results locs cs.1 cs.2 (r + 1)

/-- The outer `for q in queries` loop (lines 166-216): break when enough
postings are collected, and propagate an authentication abort. -/
def runQueries (net : Net) (results : Nat) :
    List String → List (String × Posting) → List String → Nat → FetchOut
  | [], col, seen, r => .ok col seen r
  | q :: qs, col, seen, r =>
    if results ≤ col.length then .ok col seen r
    else
      match runLocs net q results locations col seen r with
      | .auth r2 => .auth r2
      | .ok col2 seen2 r2 => runQueries net results qs col2 seen2 r2

/-- Python truthiness of an optional credential string: `None` and the empty
string are falsy. -/
def pyTruthyB (o : Option String) : Bool :=
  match o with
  | some s => !(s == "")
  | none => false

/-- Instrumented result of `fetch_real_jobs`: the full `collected` list (each
posting paired with its dedup key, before the final `[:results]`), the number
of external requests issued, and which of the two `st.error` reports fired. -/
structure FetchResultK where
  pairs : List (String × Posting)
  requests : Nat
  authError : Bool
  configError : Bool
deriving DecidableEq

/-- `fetch_real_jobs`, instrumented (lines 133-218): missing or empty
credentials return immediately with the configuration error (lines 138-140);
an authentication abort returns the empty list with the auth error (lines
190-192); otherwise the loops' accumulated state comes back. -/
def fetchRealJobsK (net : Net) (appId appKey : Option String)
    (candidates : List String) (results : Nat) : FetchResultK :=
  if pyTruthyB appId && pyTruthyB appKey then
    match runQueries net results (buildQueries candidates) [] [] 0 with
    | .auth r => { pairs := [], requests := r, authError := true, configError := false }
    | .ok col _ r => { pairs := col, requests := r, authError := false, configError := false }
  else { pairs := [], requests := 0, authError := false, configError := true }

/-- The observable result of `fetch_real_jobs`: the returned posting list and
the reported errors. -/
structure FetchResult where
  jobs : List Posting
  requests : Nat
  authError : Bool
  configError : Bool
deriving DecidableEq

/-- `fetch_real_jobs` (src/app.py lines 133-218): the returned value is
`collected[:results]` (line 218), i.e. the instrumented pairs without their
keys, truncated to `results`. -/
def fetch_real_jobs (net : Net) (appId appKey : Option String)
    (candidates : List String) (results : Nat := 20) : FetchResult :=
  let k := fetchRealJobsK net appId appKey candidates results
  { jobs := (k.pairs.take results).map Prod.snd
    requests := k.requests
    authError := k.authError
    configError := k.configError }

/-! ## Structure lemmas for the candidate extractor -/

/-- The cleanup loop only ever appends to the accumulator. -/
theorem cleanupGo_append (rest : List String) :
    ∀ acc : List String, ∃ t, cleanupGo acc rest = acc ++ t := by
  induction rest with
  | nil => intro acc; exact ⟨[], by simp [cleanupGo]⟩
  | cons c cs ih =>
    intro acc
    by_cases h : 2 ≤ c.length ∧ c.length ≤ 80 ∧ pyLower c ∉ acc.map pyLower
    · obtain ⟨t, ht⟩ := ih (acc ++ [c])
      refine ⟨[c] ++ t, ?_⟩
      simp only [cleanupGo]
      rw [if_pos h, ht, List.append_assoc]
    · obtain ⟨t, ht⟩ := ih acc
      refine ⟨t, ?_⟩
      simp only [cleanupGo]
      rw [if_neg h, ht]

/-- The title-scan while loop only ever appends to the accumulator. -/
theorem titleFollow_append (rest : List String) :
    ∀ cands : List String, ∃ t, titleFollow cands rest = cands ++ t := by
  induction rest with
  | nil => intro cands; exact ⟨[], by simp [titleFollow]⟩
  | cons nxt rest ih =>
    intro cands
    by_cases h10 : cands.length < 10
    · by_cases h8 : (pySplit nxt).length ≤ 8
      · obtain ⟨t, ht⟩ := ih (cands ++ delimFrags nxt)
        refine ⟨delimFrags nxt ++ t, ?_⟩
        simp only [titleFollow]
        rw [if_pos h10, if_pos h8, ht, List.append_assoc]
      · refine ⟨[], ?_⟩
        simp only [titleFollow]
        rw [if_pos h10, if_neg h8, List.append_nil]
    · refine ⟨[], ?_⟩
      simp only [titleFollow]
      rw [if_neg h10, List.append_nil]

/-- The skills-scan while loop only ever appends to the accumulator. -/
theorem skillsFollow_append (rest : List String) :
    ∀ cands : List String, ∃ t, skillsFollow cands rest = cands ++ t := by
  induction rest with
  | nil => intro cands; exact ⟨[], by simp [skillsFollow]⟩
  | cons nxt rest ih =>
    intro cands
    by_cases h12 : cands.length < 12
    · by_cases hq : nxt.data.contains ',' = true ∨ (pySplit nxt).length ≤ 10
      · obtain ⟨t, ht⟩ := ih (cands ++ delimFrags nxt)
        refine ⟨delimFrags nxt ++ t, ?_⟩
        simp only [skillsFollow]
        rw [if_pos h12, if_pos hq, ht, List.append_assoc]
      · refine ⟨[], ?_⟩
        simp only [skillsFollow]
        rw [if_pos h12, if_neg hq, List.append_nil]
    · refine ⟨[], ?_⟩
      simp only [skillsFollow]
      rw [if_neg h12, List.append_nil]

/-- The skills scan only ever appends to the candidates found so far. -/
theorem skillsScanGo_append (lines : List String) :
    ∀ cands : List String, ∃ t, skillsScanGo cands lines = cands ++ t := by
  induction lines with
  | nil => intro cands; exact ⟨[], by simp [skillsScanGo]⟩
  | cons line rest ih =>
    intro cands
    by_cases h : skillsHeadingB line = true
    · obtain ⟨t, ht⟩ :=
        skillsFollow_append rest (cands ++ (delimFrags ((afterColon line).getD "")).take 6)
      refine ⟨(delimFrags ((afterColon line).getD "")).take 6 ++ t, ?_⟩
      simp only [skillsScanGo]
      rw [if_pos h, ht, List.append_assoc]
    · obtain ⟨t, ht⟩ := ih cands
      refine ⟨t, ?_⟩
      simp only [skillsScanGo]
      rw [if_neg h, ht]

/-- A line that does not match the title heading is skipped by the title scan. -/
theorem titleScanGo_skip {line : String} (h : titleHeadingB line = false)
    (rest : List String) : titleScanGo (line :: rest) = titleScanGo rest := by
  simp [titleScanGo, h]

/-- A line that does not match the skills heading is skipped by the skills scan. -/
theorem skillsScanGo_skip {line : String} (h : skillsHeadingB line = false)
    (cands rest : List String) :
    skillsScanGo cands (line :: rest) = skillsScanGo cands rest := by
  simp [skillsScanGo, h]

/-- With no title-heading line at all, the title scan finds nothing. -/
theorem titleScanGo_none :
    ∀ lines : List String, (∀ l ∈ lines, titleHeadingB l = false) →
      titleScanGo lines = [] := by
  intro lines
  induction lines with
  | nil => intro _; rfl
  | cons line rest ih =>
    intro h
    rw [titleScanGo_skip (h line (by simp)) rest]
    exact ih (fun l hl => h l (by simp [hl]))

/-- With no skills-heading line at all, the skills scan adds nothing. -/
theorem skillsScanGo_none :
    ∀ (lines cands : List String), (∀ l ∈ lines, skillsHeadingB l = false) →
      skillsScanGo cands lines = cands := by
  intro lines
  induction lines with
  | nil => intro _ _; rfl
  | cons line rest ih =>
    intro cands h
    rw [skillsScanGo_skip (h line (by simp)) cands rest]
    exact ih cands (fun l hl => h l (by simp [hl]))

/-- Per-character lowercasing preserves length. -/
theorem pyLower_length (s : String) : (pyLower s).length = s.length :=
  List.length_map s.data Char.toLower

/-- Master invariant of the cleanup loop: with `acc` the fragments kept so
far out of an already-processed prefix `processed` (each kept fragment has
valid length, kept fragments have pairwise distinct lowercasings, each is the
first of its lowercase class in `processed`, every valid-length processed
fragment's class is represented in `acc`, and `acc` is a sublist of
`processed`), the final output keeps all four facts over `processed ++ rest`. -/
theorem cleanupGo_master :
    ∀ (rest acc processed : List String),
      (∀ d ∈ processed, 2 ≤ d.length → d.length ≤ 80 →
        pyLower d ∈ acc.map pyLower) →
      acc.Pairwise (fun a b => pyLower a ≠ pyLower b) →
      (∀ c ∈ acc, 2 ≤ c.length ∧ c.length ≤ 80) →
      (∀ c ∈ acc, ∃ l₁ l₂, processed = l₁ ++ c :: l₂ ∧
        ∀ d ∈ l₁, pyLower d ≠ pyLower c) →
      acc.Sublist processed →
      ((cleanupGo acc rest).Pairwise (fun a b => pyLower a ≠ pyLower b) ∧
       (∀ c ∈ cleanupGo acc rest, 2 ≤ c.length ∧ c.length ≤ 80) ∧
       (∀ c ∈ cleanupGo acc rest, ∃ l₁ l₂, processed ++ rest = l₁ ++ c :: l₂ ∧
         ∀ d ∈ l₁, pyLower d ≠ pyLower c) ∧
       (cleanupGo acc rest).Sublist (processed ++ rest)) := by
  intro rest
  induction rest with
  | nil =>
    intro acc processed hrep hpw hlen hfirst hsub
    simp only [cleanupGo, List.append_nil]
    exact ⟨hpw, hlen, hfirst, hsub⟩
  | cons c cs ih =>
    intro acc processed hrep hpw hlen hfirst hsub
    simp only [cleanupGo]
    by_cases h : 2 ≤ c.length ∧ c.length ≤ 80 ∧ pyLower c ∉ acc.map pyLower
    · rw [if_pos h]
      have key : ∀ d ∈ processed, pyLower d ≠ pyLower c := by
        intro d hd heq
        have hdlen : d.length = c.length := by
          have h1 := pyLower_length d
          have h2 := pyLower_length c
          rw [← h1, heq, h2]
        have hmem : pyLower d ∈ acc.map pyLower :=
          hrep d hd (hdlen ▸ h.1) (hdlen ▸ h.2.1)
        exact h.2.2 (heq ▸ hmem)
      have hrep2 : ∀ d ∈ processed ++ [c], 2 ≤ d.length → d.length ≤ 80 →
          pyLower d ∈ (acc ++ [c]).map pyLower := by
        intro d hd h2 h80
        rw [List.map_append]
        rcases List.mem_append.1 hd with hd | hd
        · exact List.mem_append.2 (Or.inl (hrep d hd h2 h80))
        · simp only [List.mem_singleton] at hd
          subst hd
          exact List.mem_append.2 (Or.inr (by simp))
      have hpw2 : (acc ++ [c]).Pairwise (fun a b => pyLower a ≠ pyLower b) := by
        rw [List.pairwise_append]
        refine ⟨hpw, by simp, ?_⟩
        intro a ha b hb
        simp only [List.mem_singleton] at hb
        subst hb
        intro heq
        exact h.2.2 (heq ▸ List.mem_map_of_mem pyLower ha)
      have hlen2 : ∀ x ∈ acc ++ [c], 2 ≤ x.length ∧ x.length ≤ 80 := by
        intro x hx
        rcases List.mem_append.1 hx with hx | hx
        · exact hlen x hx
        · simp only [List.mem_singleton] at hx
          subst hx
          exact ⟨h.1, h.2.1⟩
      have hfirst2 : ∀ x ∈ acc ++ [c], ∃ l₁ l₂, processed ++ [c] = l₁ ++ x :: l₂ ∧
          ∀ d ∈ l₁, pyLower d ≠ pyLower x := by
        intro x hx
        rcases List.mem_append.1 hx with hx | hx
        · obtain ⟨l₁, l₂, hdecomp, hne⟩ := hfirst x hx
          exact ⟨l₁, l₂ ++ [c], by rw [hdecomp]; simp, hne⟩
        · simp only [List.mem_singleton] at hx
          subst hx
          exact ⟨processed, [], rfl, key⟩
      have hsub2 : (acc ++ [c]).Sublist (processed ++ [c]) :=
        hsub.append (List.Sublist.refl [c])
      have := ih (acc ++ [c]) (processed ++ [c]) hrep2 hpw2 hlen2 hfirst2 hsub2
      rwa [List.append_assoc, List.singleton_append] at this
    · rw [if_neg h]
      have hrep2 : ∀ d ∈ processed ++ [c], 2 ≤ d.length → d.length ≤ 80 →
          pyLower d ∈ acc.map pyLower := by
        intro d hd h2 h80
        rcases List.mem_append.1 hd with hd | hd
        · exact hrep d hd h2 h80
        · simp only [List.mem_singleton] at hd
          subst hd
          by_contra hc
          exact h ⟨h2, h80, hc⟩
      have hfirst2 : ∀ x ∈ acc, ∃ l₁ l₂, processed ++ [c] = l₁ ++ x :: l₂ ∧
          ∀ d ∈ l₁, pyLower d ≠ pyLower x := by
        intro x hx
        obtain ⟨l₁, l₂, hdecomp, hne⟩ := hfirst x hx
        exact ⟨l₁, l₂ ++ [c], by rw [hdecomp]; simp, hne⟩
      have hsub2 : acc.Sublist (processed ++ [c]) :=
        hsub.trans (List.sublist_append_left processed [c])
      have := ih acc (processed ++ [c]) hrep2 hpw hlen hfirst2 hsub2
      rwa [List.append_assoc, List.singleton_append] at this

/-- The four cleanup facts, specialised to `parse_analysis_to_candidates`:
pairwise case-insensitively distinct output, valid lengths, each output
element the first of its lowercase class among the collected fragments, and
the output a sublist of the collected fragments. -/
theorem parse_cleanup_props (s : String) :
    (parse_analysis_to_candidates s).Pairwise (fun a b => pyLower a ≠ pyLower b) ∧
    (∀ c ∈ parse_analysis_to_candidates s, 2 ≤ c.length ∧ c.length ≤ 80) ∧
    (∀ c ∈ parse_analysis_to_candidates s, ∃ l₁ l₂,
      candidatesOf s = l₁ ++ c :: l₂ ∧ ∀ d ∈ l₁, pyLower d ≠ pyLower c) ∧
    (parse_analysis_to_candidates s).Sublist (candidatesOf s) := by
  have := cleanupGo_master (candidatesOf s) [] [] (by simp) (by simp) (by simp)
    (by simp) (by simp)
  simpa [parse_analysis_to_candidates] using this

/-- The cleanup loop keeps something whenever some incoming fragment has
valid length. -/
theorem cleanupGo_ne_nil :
    ∀ (l acc : List String), (∃ c ∈ l, 2 ≤ c.length ∧ c.length ≤ 80) →
      cleanupGo acc l ≠ [] := by
  intro l
  induction l with
  | nil =>
    intro acc h
    simp at h
  | cons c cs ih =>
    intro acc h
    obtain ⟨d, hd, hdv⟩ := h
    simp only [cleanupGo]
    by_cases hk : 2 ≤ c.length ∧ c.length ≤ 80 ∧ pyLower c ∉ acc.map pyLower
    · rw [if_pos hk]
      obtain ⟨t, ht⟩ := cleanupGo_append cs (acc ++ [c])
      rw [ht]
      simp
    · rw [if_neg hk]
      rcases List.mem_cons.1 hd with rfl | hd2
      · have hmem : pyLower d ∈ acc.map pyLower := by
          by_contra hc
          exact hk ⟨hdv.1, hdv.2, hc⟩
        have hacc : acc ≠ [] := by
          intro he
          rw [he] at hmem
          simp at hmem
        obtain ⟨t, ht⟩ := cleanupGo_append cs acc
        rw [ht]
        intro he
        exact hacc (List.append_eq_nil.1 he).1
      · exact ih acc ⟨d, hd2, hdv⟩

/-! ## Stripped-ness of collected fragments -/

/-- The head surviving `dropWhile` fails the predicate. -/
theorem myDropWhile_head (p : Char → Bool) :
    ∀ (l : List Char) (c : Char) (cs : List Char),
      List.dropWhile p l = c :: cs → p c = false := by
  intro l
  induction l with
  | nil => intro c cs h; simp at h
  | cons a as ih =>
    intro c cs h
    cases hp : p a with
    | false =>
      rw [List.dropWhile_cons_of_neg (by simp [hp])] at h
      injection h with h1 _
      subst h1
      exact hp
    | true =>
      rw [List.dropWhile_cons_of_pos hp] at h
      exact ih c cs h

/-- `dropWhile` is the identity when the head already fails the predicate. -/
theorem myDropWhile_self (p : Char → Bool) :
    ∀ l : List Char, (∀ c cs, l = c :: cs → p c = false) →
      List.dropWhile p l = l := by
  intro l h
  cases l with
  | nil => rfl
  | cons a as => exact List.dropWhile_cons_of_neg (by simp [h a as rfl])

/-- `dropWhile` yields a suffix. -/
theorem myDropWhile_suffix (p : Char → Bool) :
    ∀ l : List Char, ∃ t, l = t ++ List.dropWhile p l := by
  intro l
  induction l with
  | nil => exact ⟨[], rfl⟩
  | cons a as ih =>
    cases hp : p a with
    | false => exact ⟨[], by rw [List.dropWhile_cons_of_neg (by simp [hp])]; rfl⟩
    | true =>
      obtain ⟨t, ht⟩ := ih
      refine ⟨a :: t, ?_⟩
      rw [List.dropWhile_cons_of_pos hp]
      show a :: as = a :: (t ++ List.dropWhile p as)
      rw [← ht]

/-- A both-ends-stripped list has no leading whitespace left. -/
theorem stripChars_front (l : List Char) :
    List.dropWhile pyIsSpace (stripChars l) = stripChars l := by
  apply myDropWhile_self
  intro c cs h
  unfold stripChars at h
  obtain ⟨t, ht⟩ := myDropWhile_suffix pyIsSpace (List.dropWhile pyIsSpace l).reverse
  have h2 := congrArg List.reverse ht
  rw [List.reverse_reverse, List.reverse_append, h] at h2
  exact myDropWhile_head pyIsSpace l c (cs ++ t.reverse) (by simpa using h2)

/-- Stripping both ends is idempotent. -/
theorem stripChars_idem (l : List Char) : stripChars (stripChars l) = stripChars l := by
  show ((List.dropWhile pyIsSpace (stripChars l)).reverse.dropWhile pyIsSpace).reverse
      = stripChars l
  rw [stripChars_front]
  simp only [stripChars]
  rw [List.reverse_reverse, List.dropWhile_idempotent]

/-- `str.strip()` is idempotent. -/
theorem pyStrip_idem (s : String) : pyStrip (pyStrip s) = pyStrip s :=
  congrArg String.mk (stripChars_idem s.data)

/-- Every delimiter fragment is already stripped. -/
theorem delimFrags_strip {t x : String} (hx : x ∈ delimFrags t) : pyStrip x = x := by
  have hx2 := (List.mem_filter.1 hx).1
  obtain ⟨y, _, rfl⟩ := List.mem_map.1 hx2
  exact pyStrip_idem y

/-- The title-scan while loop preserves stripped-ness. -/
theorem titleFollow_strip :
    ∀ (rest cands : List String), (∀ x ∈ cands, pyStrip x = x) →
      ∀ x ∈ titleFollow cands rest, pyStrip x = x := by
  intro rest
  induction rest with
  | nil =>
    intro cands h x hx
    simp only [titleFollow] at hx
    exact h x hx
  | cons nxt rest ih =>
    intro cands h x hx
    simp only [titleFollow] at hx
    by_cases h10 : cands.length < 10
    · rw [if_pos h10] at hx
      by_cases h8 : (pySplit nxt).length ≤ 8
      · rw [if_pos h8] at hx
        refine ih (cands ++ delimFrags nxt) ?_ x hx
        intro y hy
        rcases List.mem_append.1 hy with hy | hy
        · exact h y hy
        · exact delimFrags_strip hy
      · rw [if_neg h8] at hx
        exact h x hx
    · rw [if_neg h10] at hx
      exact h x hx

/-- The skills-scan while loop preserves stripped-ness. -/
theorem skillsFollow_strip :
    ∀ (rest cands : List String), (∀ x ∈ cands, pyStrip x = x) →
      ∀ x ∈ skillsFollow cands rest, pyStrip x = x := by
  intro rest
  induction rest with
  | nil =>
    intro cands h x hx
    simp only [skillsFollow] at hx
    exact h x hx
  | cons nxt rest ih =>
    intro cands h x hx
    simp only [skillsFollow] at hx
    by_cases h12 : cands.length < 12
    · rw [if_pos h12] at hx
      by_cases hq : nxt.data.contains ',' = true ∨ (pySplit nxt).length ≤ 10
      · rw [if_pos hq] at hx
        refine ih (cands ++ delimFrags nxt) ?_ x hx
        intro y hy
        rcases List.mem_append.1 hy with hy | hy
        · exact h y hy
        · exact delimFrags_strip hy
      · rw [if_neg hq] at hx
        exact h x hx
    · rw [if_neg h12] at hx
      exact h x hx

/-- Everything the title scan collects is stripped. -/
theorem titleScanGo_strip :
    ∀ lines : List String, ∀ x ∈ titleScanGo lines, pyStrip x = x := by
  intro lines
  induction lines with
  | nil => intro x hx; simp [titleScanGo] at hx
  | cons line rest ih =>
    intro x hx
    simp only [titleScanGo] at hx
    by_cases h : titleHeadingB line = true
    · rw [if_pos h] at hx
      refine titleFollow_strip rest _ ?_ x hx
      intro y hy
      cases hcol : afterColon line with
      | some t => rw [hcol] at hy; exact delimFrags_strip hy
      | none => rw [hcol] at hy; simp at hy
    · rw [if_neg h] at hx
      exact ih x hx

/-- Everything the skills scan adds is stripped. -/
theorem skillsScanGo_strip :
    ∀ (lines cands : List String), (∀ x ∈ cands, pyStrip x = x) →
      ∀ x ∈ skillsScanGo cands lines, pyStrip x = x := by
  intro lines
  induction lines with
  | nil =>
    intro cands h x hx
    simp only [skillsScanGo] at hx
    exact h x hx
  | cons line rest ih =>
    intro cands h x hx
    simp only [skillsScanGo] at hx
    by_cases hh : skillsHeadingB line = true
    · rw [if_pos hh] at hx
      refine skillsFollow_strip rest _ ?_ x hx
      intro y hy
      rcases List.mem_append.1 hy with hy | hy
      · exact h y hy
      · exact delimFrags_strip (List.take_subset 6 _ hy)
    · rw [if_neg hh] at hx
      exact ih cands h x hx

/-- Every collected candidate fragment is stripped. -/
theorem candidatesOf_strip (s : String) :
    ∀ x ∈ candidatesOf s, pyStrip x = x := by
  intro x hx
  simp only [candidatesOf] at hx
  by_cases h2 : (skillsScanGo (titleScanGo (processedLines s)) (processedLines s)).isEmpty
  · rw [if_pos h2] at hx
    by_cases hf : fallbackQuery s == ""
    · rw [if_pos hf] at hx
      simp at hx
    · rw [if_neg hf] at hx
      simp only [List.mem_singleton] at hx
      subst hx
      exact pyStrip_idem (pyJoinSpace ((pySplit s).take 6))
  · rw [if_neg h2] at hx
    exact skillsScanGo_strip (processedLines s) (titleScanGo (processedLines s))
      (titleScanGo_strip (processedLines s)) x hx

/-! ## Loop lemmas for the fan-out fetcher -/

/-- Once enough postings are collected, the location loop issues nothing. -/
theorem runLocs_stop (net : Net) (q : String) (results : Nat) :
    ∀ (locs : List String) (col : List (String × Posting)) (seen : List String)
      (r : Nat), results ≤ col.length →
      runLocs net q results locs col seen r = .ok col seen r := by
  intro locs col seen r h
  cases locs with
  | nil => rfl
  | cons loc locs =>
    simp only [runLocs]
    rw [if_pos h]

/-- Once enough postings are collected, the query loop issues nothing. -/
theorem runQueries_stop (net : Net) (results : Nat) :
    ∀ (qs : List String) (col : List (String × Posting)) (seen : List String)
      (r : Nat), results ≤ col.length →
      runQueries net results qs col seen r = .ok col seen r := by
  intro qs col seen r h
  cases qs with
  | nil => rfl
  | cons q qs =>
    simp only [runQueries]
    rw [if_pos h]

/-- The location loop issues at most one request per location. -/
theorem runLocs_reqs (net : Net) (q : String) (results : Nat) :
    ∀ (locs : List String) (col : List (String × Posting)) (seen : List String)
      (r : Nat), reqsOf (runLocs net q results locs col seen r) ≤ r + locs.length := by
  intro locs
  induction locs with
  | nil => intro col seen r; simp [runLocs, reqsOf]
  | cons loc locs ih =>
    intro col seen r
    simp only [runLocs, List.length_cons]
    by_cases h : results ≤ col.length
    · rw [if_pos h]
      simp only [reqsOf]
      omega
    · rw [if_neg h]
      split
      · have := ih col seen (r + 1)
        omega
      · rename_i status body heq
        by_cases h200 : status ≠ 200
        · rw [if_pos h200]
          by_cases hauth : status = 401 ∨ status = 403
          · rw [if_pos hauth]
            simp only [reqsOf]
            omega
          · rw [if_neg hauth]
            have := ih col seen (r + 1)
            omega
        · rw [if_neg h200]
          split
          · have := ih col seen (r + 1)
            omega
          · rename_i data
            have := ih (addJobs results data col seen).1 (addJobs results data col seen).2 (r + 1)
            omega

/-- The query loop issues at most `locations.length` requests per query. -/
theorem runQueries_reqs (net : Net) (results : Nat) :
    ∀ (qs : List String) (col : List (String × Posting)) (seen : List String)
      (r : Nat),
      reqsOf (runQueries net results qs col seen r) ≤ r + qs.length * locations.length := by
  intro qs
  induction qs with
  | nil => intro col seen r; simp [runQueries, reqsOf]
  | cons q qs ih =>
    intro col seen r
    have hlen8 : locations.length = 8 := rfl
    simp only [runQueries, List.length_cons, hlen8]
    by_cases h : results ≤ col.length
    · rw [if_pos h]
      simp only [reqsOf]
      omega
    · rw [if_neg h]
      have hloc := runLocs_reqs net q results locations col seen r
      rw [hlen8] at hloc
      split
      · rename_i r2 heq
        rw [heq] at hloc
        simp only [reqsOf] at hloc ⊢
        omega
      · rename_i col2 seen2 r2 heq
        rw [heq] at hloc
        simp only [reqsOf] at hloc
        have := ih col2 seen2 r2
        rw [hlen8] at this
        omega

/-- The data fold keeps the dedup invariant: every collected pair's key is in
`seen`, and the collected keys are distinct. -/
theorem addJobs_inv (results : Nat) :
    ∀ (data : List AdzunaJob) (col : List (String × Posting)) (seen : List String),
      (∀ p ∈ col, p.1 ∈ seen) → (col.map Prod.fst).Nodup →
      ((∀ p ∈ (addJobs results data col seen).1, p.1 ∈ (addJobs results data col seen).2) ∧
       ((addJobs results data col seen).1.map Prod.fst).Nodup) := by
  intro data
  induction data with
  | nil => intro col seen h1 h2; exact ⟨h1, h2⟩
  | cons job rest ih =>
    intro col seen h1 h2
    simp only [addJobs]
    by_cases hseen : jobId job ∈ seen
    · rw [if_pos hseen]
      exact ih col seen h1 h2
    · rw [if_neg hseen]
      have hkeys : ∀ a ∈ col.map Prod.fst, a ∈ seen := by
        intro a ha
        obtain ⟨p, hp, rfl⟩ := List.mem_map.1 ha
        exact h1 p hp
      have h1' : ∀ p ∈ col ++ [(jobId job, mkPosting job)],
          p.1 ∈ seen ++ [jobId job] := by
        intro p hp
        rcases List.mem_append.1 hp with hp | hp
        · exact List.mem_append.2 (Or.inl (h1 p hp))
        · simp only [List.mem_singleton] at hp
          subst hp
          exact List.mem_append.2 (Or.inr (by simp))
      have h2' : ((col ++ [(jobId job, mkPosting job)]).map Prod.fst).Nodup := by
        rw [List.map_append]
        rw [List.nodup_append]
        refine ⟨h2, by simp, ?_⟩
        intro a ha hb
        simp only [List.map_cons, List.map_nil, List.mem_singleton] at hb
        subst hb
        exact hseen (hkeys _ ha)
      by_cases hlen : results ≤ (col ++ [(jobId job, mkPosting job)]).length
      · rw [if_pos hlen]
        exact ⟨h1', h2'⟩
      · rw [if_neg hlen]
        exact ih _ _ h1' h2'

/-- The location loop keeps the dedup invariant. -/
theorem runLocs_inv (net : Net) (q : String) (results : Nat) :
    ∀ (locs : List String) (col : List (String × Posting)) (seen : List String)
      (r : Nat) (col2 : List (String × Posting)) (seen2 : List String) (r2 : Nat),
      (∀ p ∈ col, p.1 ∈ seen) → (col.map Prod.fst).Nodup →
      runLocs net q results locs col seen r = .ok col2 seen2 r2 →
      ((∀ p ∈ col2, p.1 ∈ seen2) ∧ (col2.map Prod.fst).Nodup) := by
  intro locs
  induction locs with
  | nil =>
    intro col seen r col2 seen2 r2 h1 h2 hrun
    simp only [runLocs] at hrun
    cases hrun
    exact ⟨h1, h2⟩
  | cons loc locs ih =>
    intro col seen r col2 seen2 r2 h1 h2 hrun
    simp only [runLocs] at hrun
    by_cases h : results ≤ col.length
    · rw [if_pos h] at hrun
      cases hrun
      exact ⟨h1, h2⟩
    · rw [if_neg h] at hrun
      split at hrun
      · exact ih col seen (r + 1) col2 seen2 r2 h1 h2 hrun
      · rename_i status body heq
        by_cases h200 : status ≠ 200
        · rw [if_pos h200] at hrun
          by_cases hauth : status = 401 ∨ status = 403
          · rw [if_pos hauth] at hrun
            cases hrun
          · rw [if_neg hauth] at hrun
            exact ih col seen (r + 1) col2 seen2 r2 h1 h2 hrun
        · rw [if_neg h200] at hrun
          split at hrun
          · exact ih col seen (r + 1) col2 seen2 r2 h1 h2 hrun
          · rename_i data
            have hadd := addJobs_inv results data col seen h1 h2
            exact ih _ _ (r + 1) col2 seen2 r2 hadd.1 hadd.2 hrun

/-- The query loop keeps the dedup invariant. -/
theorem runQueries_inv (net : Net) (results : Nat) :
    ∀ (qs : List String) (col : List (String × Posting)) (seen : List String)
      (r : Nat) (col2 : List (String × Posting)) (seen2 : List String) (r2 : Nat),
      (∀ p ∈ col, p.1 ∈ seen) → (col.map Prod.fst).Nodup →
      runQueries net results qs col seen r = .ok col2 seen2 r2 →
      ((∀ p ∈ col2, p.1 ∈ seen2) ∧ (col2.map Prod.fst).Nodup) := by
  intro qs
  induction qs with
  | nil =>
    intro col seen r col2 seen2 r2 h1 h2 hrun
    simp only [runQueries] at hrun
    cases hrun
    exact ⟨h1, h2⟩
  | cons q qs ih =>
    intro col seen r col2 seen2 r2 h1 h2 hrun
    simp only [runQueries] at hrun
    by_cases h : results ≤ col.length
    · rw [if_pos h] at hrun
      cases hrun
      exact ⟨h1, h2⟩
    · rw [if_neg h] at hrun
      split at hrun
      · cases hrun
      · rename_i col3 seen3 r3 heq
        have hmid := runLocs_inv net q results locations col seen r col3 seen3 r3 h1 h2 heq
        exact ih col3 seen3 r3 col2 seen2 r2 hmid.1 hmid.2 hrun

/-- An authentication response aborts the location loop with exactly the one
request just issued, whatever is already collected. -/
theorem runLocs_auth (net : Net) (q : String) (results : Nat) (loc : String)
    (locs : List String) (col : List (String × Posting)) (seen : List String)
    (r : Nat) (st : Nat) (body : Option (List AdzunaJob))
    (hcol : col.length < results) (hnet : net q loc = .resp st body)
    (hst : st = 401 ∨ st = 403) :
    runLocs net q results (loc :: locs) col seen r = .auth (r + 1) := by
  have h200 : st ≠ 200 := by rcases hst with rfl | rfl <;> simp
  simp only [runLocs]
  rw [if_neg (by omega), hnet]
  show (if st ≠ 200 then if st = 401 ∨ st = 403 then FetchOut.auth (r + 1)
    else runLocs net q results locs col seen (r + 1)
    else _) = FetchOut.auth (r + 1)
  rw [if_pos h200, if_pos hst]

/-- The query loop propagates an authentication abort unchanged. -/
theorem runQueries_auth (net : Net) (results : Nat) (q : String)
    (qs : List String) (col : List (String × Posting)) (seen : List String)
    (r r2 : Nat) (hcol : col.length < results)
    (hrun : runLocs net q results locations col seen r = .auth r2) :
    runQueries net results (q :: qs) col seen r = .auth r2 := by
  simp only [runQueries]
  rw [if_neg (by omega), hrun]

/-- An authentication abort of the loops makes `fetch_real_jobs` return the
empty list, count the requests issued up to the abort, and report the
authentication error. -/
theorem fetchRealJobsK_auth (net : Net) (appId appKey : Option String)
    (cands : List String) (results r2 : Nat)
    (h1 : pyTruthyB appId = true) (h2 : pyTruthyB appKey = true)
    (hrun : runQueries net results (buildQueries cands) [] [] 0 = .auth r2) :
    fetchRealJobsK net appId appKey cands results =
      ⟨[], r2, true, false⟩ := by
  unfold fetchRealJobsK
  rw [if_pos (by simp [h1, h2]), hrun]

/-- Whenever the auth error is reported, the collected pair list is empty. -/
theorem fetchRealJobsK_authError_empty (net : Net) (appId appKey : Option String)
    (cands : List String) (results : Nat) :
    (fetchRealJobsK net appId appKey cands results).authError = true →
    (fetchRealJobsK net appId appKey cands results).pairs = [] := by
  unfold fetchRealJobsK
  by_cases hc : pyTruthyB appId && pyTruthyB appKey
  · rw [if_pos hc]
    cases hrun : runQueries net results (buildQueries cands) [] [] 0 with
    | auth r => intro _; rfl
    | ok col seen r => intro h; simp at h
  · rw [if_neg hc]
    intro _
    rfl

/-- The collected keys of the instrumented run are pairwise distinct. -/
theorem fetchRealJobsK_nodup (net : Net) (appId appKey : Option String)
    (cands : List String) (results : Nat) :
    ((fetchRealJobsK net appId appKey cands results).pairs.map Prod.fst).Nodup := by
  unfold fetchRealJobsK
  by_cases hc : pyTruthyB appId && pyTruthyB appKey
  · rw [if_pos hc]
    cases hrun : runQueries net results (buildQueries cands) [] [] 0 with
    | auth r => simp
    | ok col seen r =>
      have := runQueries_inv net results (buildQueries cands) [] [] 0 col seen r
        (by simp) (by simp) hrun
      simpa using this.2
  · rw [if_neg hc]
    simp

/-- The request count of `fetch_real_jobs` is bounded by one request per
(query, location) pair. -/
theorem fetchRealJobsK_requests (net : Net) (appId appKey : Option String)
    (cands : List String) (results : Nat) :
    (fetchRealJobsK net appId appKey cands results).requests ≤
      (buildQueries cands).length * locations.length := by
  unfold fetchRealJobsK
  by_cases hc : pyTruthyB appId && pyTruthyB appKey
  · rw [if_pos hc]
    have h := runQueries_reqs net results (buildQueries cands) [] [] 0
    cases hrun : runQueries net results (buildQueries cands) [] [] 0 with
    | auth r =>
      rw [hrun] at h
      simpa [reqsOf] using h
    | ok col seen r =>
      rw [hrun] at h
      simpa [reqsOf] using h
  · rw [if_neg hc]
    simp

/-! ## The claims -/

/-- Claim C1, counterexample: the extractor's output is not always of length
between 1 and 12.  On the empty input the fallback fragment is empty and the
output is empty; on a skills section whose continuation line carries 7
comma-separated fragments the output has 13 elements. -/
theorem claim_C1_counterexample :
    parse_analysis_to_candidates "" = [] ∧
    12 < (parse_analysis_to_candidates
      "Skills: a1, b2, c3, d4, e5, f6\ng7, h8, i9, j10, k11, l12, m13").length := by
  constructor
  · rfl
  · decide

/-- Claim C1, amended: the extractor's output length is bounded by the number
of collected fragments (not by 12), and the output is non-empty exactly when
some collected fragment has length between 2 and 80 — so the fallback does
not guarantee a non-empty result. -/
theorem claim_C1_theorem (s : String) :
    (parse_analysis_to_candidates s).length ≤ (candidatesOf s).length ∧
    (parse_analysis_to_candidates s ≠ [] ↔
      ∃ c ∈ candidatesOf s, 2 ≤ c.length ∧ c.length ≤ 80) := by
  obtain ⟨h1, h2, h3, h4⟩ := parse_cleanup_props s
  refine ⟨h4.length_le, ⟨?_, ?_⟩⟩
  · intro hne
    cases hp : parse_analysis_to_candidates s with
    | nil => exact absurd hp hne
    | cons c cs =>
      have hc : c ∈ parse_analysis_to_candidates s := by rw [hp]; simp
      exact ⟨c, h4.subset hc, h2 c hc⟩
  · intro h
    obtain ⟨c, hc, hv⟩ := h
    exact cleanupGo_ne_nil (candidatesOf s) [] ⟨c, hc, hv⟩

/-- Claim C2: the fan-out fetcher returns at most `N` postings, issues at
most `|queries| * |locations|` external requests (where `queries` is the
supplied candidates followed by the priority roles and the fallback titles,
and `locations` the fixed 8-element list), and both loops stop issuing
requests as soon as `N` postings are collected. -/
theorem claim_C2_theorem (net : Net) (appId appKey : Option String)
    (cands : List String) (N : Nat) :
    ((fetch_real_jobs net appId appKey cands N).jobs.length ≤ N) ∧
    ((fetch_real_jobs net appId appKey cands N).requests ≤
      (cands ++ priority_roles ++ fallbackTitles).length * locations.length) ∧
    (∀ (qs : List String) (col : List (String × Posting)) (seen : List String)
      (r : Nat), N ≤ col.length → runQueries net N qs col seen r = .ok col seen r) ∧
    (∀ (q : String) (locs : List String) (col : List (String × Posting))
      (seen : List String) (r : Nat), N ≤ col.length →
      runLocs net q N locs col seen r = .ok col seen r) := by
  refine ⟨?_, ?_, ?_, ?_⟩
  · show (((fetchRealJobsK net appId appKey cands N).pairs.take N).map Prod.snd).length ≤ N
    rw [List.length_map, List.length_take]
    exact min_le_left _ _
  · have h1 := fetchRealJobsK_requests net appId appKey cands N
    have h2 : (buildQueries cands).length ≤
        (cands ++ priority_roles ++ fallbackTitles).length := by
      simp only [buildQueries, List.length_append]
      have := List.length_filter_le (fun q => !(q == "")) cands
      omega
    exact le_trans h1 (Nat.mul_le_mul_right _ h2)
  · intro qs col seen r h
    exact runQueries_stop net N qs col seen r h
  · intro q locs col seen r h
    exact runLocs_stop net q N locs col seen r h

/-- Claim C3: a 401/403 response makes the inner loop abort with no further
request after it (only the aborting request is counted), the outer loop
propagates the abort, an abort makes `fetch_real_jobs` return the empty list
with the auth error reported, and whenever the auth error is reported the
returned list is empty — whatever was already collected. -/
theorem claim_C3_theorem (net : Net) (appId appKey : Option String)
    (cands : List String) (N : Nat) :
    ((fetch_real_jobs net appId appKey cands N).authError = true →
      (fetch_real_jobs net appId appKey cands N).jobs = []) ∧
    (∀ (q loc : String) (locs : List String) (col : List (String × Posting))
      (seen : List String) (r st : Nat) (body : Option (List AdzunaJob)),
      col.length < N → net q loc = .resp st body → (st = 401 ∨ st = 403) →
      runLocs net q N (loc :: locs) col seen r = .auth (r + 1)) ∧
    (∀ (q : String) (qs : List String) (col : List (String × Posting))
      (seen : List String) (r r2 : Nat),
      col.length < N → runLocs net q N locations col seen r = .auth r2 →
      runQueries net N (q :: qs) col seen r = .auth r2) ∧
    (∀ r2 : Nat, pyTruthyB appId = true → pyTruthyB appKey = true →
      runQueries net N (buildQueries cands) [] [] 0 = .auth r2 →
      fetch_real_jobs net appId appKey cands N =
        { jobs := [], requests := r2, authError := true, configError := false }) := by
  refine ⟨?_, ?_, ?_, ?_⟩
  · intro h
    have hp := fetchRealJobsK_authError_empty net appId appKey cands N h
    show (((fetchRealJobsK net appId appKey cands N).pairs.take N).map Prod.snd) = []
    rw [hp]
    simp
  · intro q loc locs col seen r st body h1 h2 h3
    exact runLocs_auth net q N loc locs col seen r st body h1 h2 h3
  · intro q qs col seen r r2 h1 h2
    exact runQueries_auth net N q qs col seen r r2 h1 h2
  · intro r2 h1 h2 hrun
    have hK := fetchRealJobsK_auth net appId appKey cands N r2 h1 h2 hrun
    simp [fetch_real_jobs, hK]

/-- Claim C4: whenever the first title-heading line of the processed input is
exactly "Suggested job titles: Backend Developer, Data Engineer", the
extractor's output begins with those two titles in that order. -/
theorem claim_C4_theorem (s : String) (pre post : List String)
    (hdecomp : processedLines s =
      pre ++ "Suggested job titles: Backend Developer, Data Engineer" :: post)
    (hpre : ∀ l ∈ pre, titleHeadingB l = false) :
    (parse_analysis_to_candidates s).take 2 =
      ["Backend Developer", "Data Engineer"] := by
  have htitle : titleScanGo (processedLines s) =
      titleFollow ["Backend Developer", "Data Engineer"] post := by
    rw [hdecomp]
    clear hdecomp
    induction pre with
    | nil => rfl
    | cons l pre ih =>
      rw [List.cons_append, titleScanGo_skip (hpre l (by simp)) _]
      exact ih (fun x hx => hpre x (by simp [hx]))
  obtain ⟨t1, ht1⟩ := titleFollow_append post ["Backend Developer", "Data Engineer"]
  obtain ⟨t2, ht2⟩ := skillsScanGo_append (processedLines s)
    (titleScanGo (processedLines s))
  have hc2 : skillsScanGo (titleScanGo (processedLines s)) (processedLines s) =
      "Backend Developer" :: "Data Engineer" :: (t1 ++ t2) := by
    rw [ht2, htitle, ht1]
    simp
  have hcand : candidatesOf s =
      "Backend Developer" :: "Data Engineer" :: (t1 ++ t2) := by
    simp only [candidatesOf]
    rw [hc2]
    simp
  have hstep : parse_analysis_to_candidates s =
      cleanupGo ["Backend Developer", "Data Engineer"] (t1 ++ t2) := by
    rw [parse_analysis_to_candidates, hcand]
    simp only [cleanupGo]
    rw [if_pos (by decide), if_pos (by decide)]
    rfl
  obtain ⟨t3, ht3⟩ := cleanupGo_append (t1 ++ t2) ["Backend Developer", "Data Engineer"]
  rw [hstep, ht3]
  rfl

/-- Claim C4, witness: the heading line alone produces exactly the two
titles. -/
theorem claim_C4_witness :
    (parse_analysis_to_candidates
      "Suggested job titles: Backend Developer, Data Engineer").take 2 =
      ["Backend Developer", "Data Engineer"] :=
  claim_C4_theorem "Suggested job titles: Backend Developer, Data Engineer" [] []
    (by rfl) (by simp)

/-- Claim C5, counterexample: on the heading-free input "x" the extractor
does not return the one-element fallback list — the fallback fragment "x" is
shorter than 2 characters and the cleanup drops it, so the output is empty. -/
theorem claim_C5_counterexample :
    (∀ l ∈ processedLines "x", titleHeadingB l = false ∧ skillsHeadingB l = false) ∧
    fallbackQuery "x" = "x" ∧
    parse_analysis_to_candidates "x" = [] := by
  refine ⟨by decide, rfl, rfl⟩

/-- Claim C5, amended: on input with no title-heading line and no
skills-heading line, the extractor returns the single fallback candidate (the
first six whitespace tokens joined by spaces) when its length lies in
[2, 80], and the empty list otherwise. -/
theorem claim_C5_theorem (s : String)
    (h : ∀ l ∈ processedLines s, titleHeadingB l = false ∧ skillsHeadingB l = false) :
    parse_analysis_to_candidates s =
      if 2 ≤ (fallbackQuery s).length ∧ (fallbackQuery s).length ≤ 80
      then [fallbackQuery s] else [] := by
  have ht : titleScanGo (processedLines s) = [] :=
    titleScanGo_none _ (fun l hl => (h l hl).1)
  have hs : skillsScanGo [] (processedLines s) = [] :=
    skillsScanGo_none _ [] (fun l hl => (h l hl).2)
  have hcand : candidatesOf s =
      if fallbackQuery s == "" then [] else [fallbackQuery s] := by
    simp only [candidatesOf]
    rw [ht, hs]
    simp
  rw [parse_analysis_to_candidates, hcand]
  by_cases hf : fallbackQuery s == ""
  · rw [if_pos hf]
    have hemp : fallbackQuery s = "" := by simpa using hf
    have hlen : (fallbackQuery s).length = 0 := by rw [hemp]; rfl
    rw [if_neg (by omega)]
    rfl
  · rw [if_neg hf]
    by_cases hv : 2 ≤ (fallbackQuery s).length ∧ (fallbackQuery s).length ≤ 80
    · rw [if_pos hv]
      simp only [cleanupGo]
      rw [if_pos ⟨hv.1, hv.2, by simp⟩]
      rfl
    · rw [if_neg hv]
      simp only [cleanupGo]
      rw [if_neg (fun hcon => hv ⟨hcon.1, hcon.2.1⟩)]

/-- Claim C5, witness: a plain two-word input is returned as the single
fallback candidate. -/
theorem claim_C5_witness :
    parse_analysis_to_candidates "hello world" =
      (if 2 ≤ (fallbackQuery "hello world").length ∧
          (fallbackQuery "hello world").length ≤ 80
       then [fallbackQuery "hello world"] else []) ∧
    parse_analysis_to_candidates "hello world" = ["hello world"] :=
  ⟨ claim_C5_theorem "hello world" (by decide), rfl⟩

/-- Claim C6: the extractor's output has pairwise case-insensitively distinct
elements, is a sublist of the collected fragments (first-seen order
preserved), and each retained element is the first fragment of its lowercase
class in scan order. -/
theorem claim_C6_theorem (s : String) :
    (parse_analysis_to_candidates s).Pairwise (fun a b => pyLower a ≠ pyLower b) ∧
    (parse_analysis_to_candidates s).Sublist (candidatesOf s) ∧
    (∀ c ∈ parse_analysis_to_candidates s, ∃ l₁ l₂,
      candidatesOf s = l₁ ++ c :: l₂ ∧ ∀ d ∈ l₁, pyLower d ≠ pyLower c) := by
  obtain ⟨h1, h2, h3, h4⟩ := parse_cleanup_props s
  exact ⟨h1, h4, h3⟩

/-- Claim C7: every element of the extractor's output is an already-stripped
fragment of length between 2 and 80, and any collected fragment outside those
bounds is excluded from the output. -/
theorem claim_C7_theorem (s : String) :
    (∀ c ∈ parse_analysis_to_candidates s,
      pyStrip c = c ∧ 2 ≤ c.length ∧ c.length ≤ 80) ∧
    (∀ c ∈ candidatesOf s, (c.length < 2 ∨ 80 < c.length) →
      c ∉ parse_analysis_to_candidates s) := by
  obtain ⟨h1, h2, h3, h4⟩ := parse_cleanup_props s
  constructor
  · intro c hc
    exact ⟨candidatesOf_strip s c (h4.subset hc), h2 c hc⟩
  · intro c _ hbad hc
    have := h2 c hc
    omega

/-- Claim C8: the keys the fetcher deduplicates by (the listing's id, or
title and company joined by a bar, recorded alongside each collected posting)
are pairwise distinct in the collected list, and the returned postings are
exactly the first `N` collected entries without their keys. -/
theorem claim_C8_theorem (net : Net) (appId appKey : Option String)
    (cands : List String) (N : Nat) :
    ((fetchRealJobsK net appId appKey cands N).pairs.map Prod.fst).Nodup ∧
    (fetch_real_jobs net appId appKey cands N).jobs =
      ((fetchRealJobsK net appId appKey cands N).pairs.take N).map Prod.snd :=
  ⟨fetchRealJobsK_nodup net appId appKey cands N, rfl⟩

/-- Claim C9: the skills scan takes at most 6 fragments from the heading
line's colon remainder; a matching heading line hands control to the
follow-up loop seeded with those fragments; a non-matching line is skipped;
a following line is consumed exactly when it contains a comma or has at most
10 whitespace tokens, and consumption stops at 12 accumulated candidates. -/
theorem claim_C9_theorem :
    (∀ line : String, ((delimFrags ((afterColon line).getD "")).take 6).length ≤ 6) ∧
    (∀ (cands : List String) (line : String) (rest : List String),
      skillsHeadingB line = true →
      skillsScanGo cands (line :: rest) =
        skillsFollow (cands ++ (delimFrags ((afterColon line).getD "")).take 6) rest) ∧
    (∀ (cands : List String) (line : String) (rest : List String),
      skillsHeadingB line = false →
      skillsScanGo cands (line :: rest) = skillsScanGo cands rest) ∧
    (∀ (cands : List String) (nxt : String) (rest : List String),
      cands.length < 12 →
      (nxt.data.contains ',' = true ∨ (pySplit nxt).length ≤ 10) →
      skillsFollow cands (nxt :: rest) = skillsFollow (cands ++ delimFrags nxt) rest) ∧
    (∀ (cands : List String) (nxt : String) (rest : List String),
      cands.length < 12 →
      ¬(nxt.data.contains ',' = true ∨ (pySplit nxt).length ≤ 10) →
      skillsFollow cands (nxt :: rest) = cands) ∧
    (∀ (cands rest : List String), 12 ≤ cands.length →
      skillsFollow cands rest = cands) := by
  refine ⟨?_, ?_, ?_, ?_, ?_, ?_⟩
  · intro line
    rw [List.length_take]
    exact min_le_left _ _
  · intro cands line rest h
    simp only [skillsScanGo]
    rw [if_pos h]
  · intro cands line rest h
    exact skillsScanGo_skip h cands rest
  · intro cands nxt rest h12 hq
    simp only [skillsFollow]
    rw [if_pos h12, if_pos hq]
  · intro cands nxt rest h12 hq
    simp only [skillsFollow]
    rw [if_pos h12, if_neg hq]
  · intro cands rest h12
    cases rest with
    | nil => rfl
    | cons nxt rest =>
      simp only [skillsFollow]
      rw [if_neg (by omega)]

/-- Claim C10: a missing or empty credential makes `fetch_real_jobs` return
the empty list with the configuration error reported and zero external
requests issued. -/
theorem claim_C10_theorem (net : Net) (appId appKey : Option String)
    (cands : List String) (N : Nat)
    (h : pyTruthyB appId = false ∨ pyTruthyB appKey = false) :
    fetch_real_jobs net appId appKey cands N =
      { jobs := [], requests := 0, authError := false, configError := true } := by
  have hcond : ¬ ((pyTruthyB appId && pyTruthyB appKey) = true) := by
    rcases h with h | h <;> simp [h]
  have hK : fetchRealJobsK net appId appKey cands N =
      { pairs := [], requests := 0, authError := false, configError := true } := by
    unfold fetchRealJobsK
    rw [if_neg hcond]
  simp [fetch_real_jobs, hK]

/-- Claim C10, witness: an absent app id triggers the configuration error
with no request. -/
theorem claim_C10_witness :
    fetch_real_jobs (fun _ _ => HttpResult.exn) none (some "key") [] 20 =
      { jobs := [], requests := 0, authError := false, configError := true } :=
  claim_C10_theorem (fun _ _ => HttpResult.exn) none (some "key") [] 20 (Or.inl rfl)

end App
